import Mathlib

/-!
Shallow embedding of `src/Source.cpp`: a benchmark of predicate-counting
strategies (sequential `count_if`, library parallel policies, and a
hand-rolled K-thread partitioned counter `my_parallel_cnt`), together with
the median-of-repeats timer `measure` and the sweep driver in `main`.

Machine integers are modelled as `Nat`/`Int` (all quantities involved are
non-negative and far below the 64-bit overflow bound at every use site).
Elapsed times are `double` in the source; the program only compares, sorts
and selects times (no floating-point arithmetic feeds back into control
flow other than order comparisons), so times are modelled as rationals `ℚ`,
a faithful model of the order structure of the finite doubles involved.
Concurrency is modelled by its sequential semantics: each worker writes a
distinct slot of the `partial` buffer and is joined before aggregation, so
the observable result is the sum of the per-range counts.
-/

namespace Lab2

/-! ## Timer (`measure`, Source.cpp lines 17-27)

`measure` invokes `fn` once per loop iteration, `repeats` times, recording
the elapsed wall-clock time of each invocation.  The i-th elapsed time is
an environment input, modelled by the oracle `time : Nat → ℚ`. -/

/-- Samples recorded by the measurement loop: one invocation of the
operation per iteration `i < repeats`, with elapsed time `time i`. -/
def runSamples (time : Nat → ℚ) (repeats : Nat) : List ℚ :=
  (List.range repeats).map time

/-- Embedding of `measure`: sort the recorded samples, return `t[t.size()/2]`. -/
def measure (time : Nat → ℚ) (repeats : Nat) : ℚ :=
  let t := runSamples time repeats
  (t.mergeSort (fun a b => decide (a ≤ b))).getD (t.length / 2) 0

/-! ## Sequential counter (`seq_cnt`, lines 30-33) -/

/-- Embedding of `seq_cnt`: `count_if(a.begin(), a.end(), p)`. -/
def seq_cnt (a : List Int) (p : Int → Bool) : Nat :=
  a.countP p

/-! ## Partitioned counter (`my_parallel_cnt`, lines 48-71) -/

/-- Left partition boundary `L = (1LL * n * k) / K` (line 59). -/
def planL (n K k : Nat) : Nat := n * k / K

/-- Right partition boundary `R = (1LL * n * (k + 1)) / K` (line 60). -/
def planR (n K k : Nat) : Nat := n * (k + 1) / K

/-- Count of predicate matches in the index range `[L, R)` of `a`:
`count_if(a.begin() + L, a.begin() + R, p)` (line 63). -/
def sliceCount (a : List Int) (p : Int → Bool) (L R : Nat) : Nat :=
  ((a.drop L).take (R - L)).countP p

/-- Embedding of `my_parallel_cnt`: if `K ≤ 1` fall back to `seq_cnt`;
otherwise worker `k` counts matches in `[planL n K k, planR n K k)` into
its own slot and the joined partials are summed. -/
def my_parallel_cnt (a : List Int) (p : Int → Bool) (K : Nat) : Nat :=
  let n := a.length
  if K ≤ 1 then seq_cnt a p
  else ((List.range K).map (fun k => sliceCount a p (planL n K k) (planR n K k))).sum

/-- Worker threads created by `my_parallel_cnt`: none on the degenerate
branch (line 52), one `th.emplace_back` per `k < K` otherwise (line 62). -/
def spawnedThreads (K : Nat) : Nat :=
  if K ≤ 1 then 0 else K

/-- Embedding of `pred_light` (lines 81-83): `(x & 1) == 0`, i.e. evenness
of the machine integer, which for `Int` is `x % 2 == 0`. -/
def pred_light (x : Int) : Bool :=
  x % 2 == 0

/-! ## Sweep driver (`main`, lines 140-165)

Elapsed times and the outcomes of the library policy calls are environment
inputs, modelled as oracles; everything the driver computes from them is
embedded exactly. -/

/-- Initial best-tracking state: `bestT = 1e300; bestK = 1` (lines 147-148). -/
def bestInit : Nat × ℚ := (1, 10 ^ 300)

/-- Best-tracking update `if (t < bestT) bestT = t, bestK = K` (line 153). -/
def stepBest (b o : Nat × ℚ) : Nat × ℚ :=
  if o.2 < b.2 then o else b

/-- Best-K selection over the ordered `(K, time)` observations of one sweep. -/
def sweepBest (obs : List (Nat × ℚ)) : Nat × ℚ :=
  obs.foldl stepBest bestInit

/-- Embedding of the candidate-generating loop
`for (int k = 2; k <= hw * 2; k *= 2) Ks.push_back(k)` (line 142): the
ascending doubling sequence starting at `k`, cut off at `bound`.  The loop
counter is always positive (it starts at 2 and doubles), carried here as
the hypothesis `hk` that also bounds the recursion. -/
def ksLoop (bound k : Nat) (hk : 0 < k) : List Nat :=
  if h : k ≤ bound then k :: ksLoop bound (2 * k) (by omega) else []
termination_by bound + 1 - k
decreasing_by omega

/-- Candidate K set (lines 141-145): `{1,2,4,8,16,32,64}` plus the doubling
loop values, then `sort` and `unique` (adjacent-duplicate removal on a
sorted list, i.e. `dedup`). -/
def candidateKs (hw : Nat) : List Nat :=
  (([1, 2, 4, 8, 16, 32, 64] ++ ksLoop (2 * hw) 2 (by omega)).mergeSort
      (fun a b => decide (a ≤ b))).dedup

/-- Modelled from the spec: the spec's words for the candidate set, "the
deduplicated, ascending-sorted union of the small constants
`{1,2,4,8,16,32,64}` with every power-of-two multiple of the hardware's
available hardware-parallelism up to twice that value".  Used only to
compare against `candidateKs`, which embeds the source. -/
def specCandidateKs (hw : Nat) : List Nat :=
  (([1, 2, 4, 8, 16, 32, 64] ++
      ((List.range (2 * hw + 1)).map (fun j => hw * 2 ^ j)).filter
        (fun m => m ≤ 2 * hw)).mergeSort
      (fun a b => decide (a ≤ b))).dedup

/-- Per-K line of the sweep (lines 150-161): the K used, the result of the
first `my_parallel_cnt` call, the measured time, and whether the
correctness check `res != res_seq` fired. -/
structure KReport where
  K : Nat
  res : Nat
  time : ℚ
  err : Bool
deriving DecidableEq

/-- Body of the sweep loop for one K (lines 150-161): obtain the result,
measure the time, update the best-(K, time) pair, and record the
correctness check; `counts K` abstracts the value returned by
`my_parallel_cnt(a, pred, K)` at line 151 and `times K` the measured time
at line 152. -/
def sweepStep (resSeq : Nat) (counts : Nat → Nat) (times : Nat → ℚ)
    (st : List KReport × Nat × ℚ) (K : Nat) : List KReport × Nat × ℚ :=
  let res := counts K
  let t := times K
  let best := stepBest (st.2.1, st.2.2) (K, t)
  (st.1 ++ [⟨K, res, t, res != resSeq⟩], best)

/-- Sweep over the whole candidate list (lines 147-161), starting from the
empty report list and `bestInit`. -/
def sweepDriver (resSeq : Nat) (counts : Nat → Nat) (times : Nat → ℚ)
    (Ks : List Nat) : List KReport × Nat × ℚ :=
  Ks.foldl (sweepStep resSeq counts times) ([], bestInit)

/-! ## Library policy wrappers (`main`, lines 117-136) -/

/-- Embedding of one `try`-wrapped policy invocation (lines 120-127 and
129-136).  `outcome` is `some (r, t)` when the library call succeeds with
result `r` and measured time `t`, and `none` when it throws
(platform non-support).  The result variable is initialised to the
sequential baseline `res_seq` and the time to `-1` (lines 117-118); the
returned flag records whether the policy was reported as supported. -/
def policyRun (outcome : Option (Nat × ℚ)) (resSeq : Nat) : Nat × ℚ × Bool :=
  match outcome with
  | some (r, t) => (r, t, true)
  | none => (resSeq, -1, false)

/-- Whole per-predicate block (lines 106-165): sequential baseline, the two
wrapped policy invocations, then the custom-K sweep. -/
def predicateBlock (a : List Int) (p : Int → Bool)
    (parOutcome parUnseqOutcome : Option (Nat × ℚ)) (times : Nat → ℚ)
    (Ks : List Nat) :
    (Nat × ℚ × Bool) × (Nat × ℚ × Bool) × (List KReport × Nat × ℚ) :=
  let resSeq := seq_cnt a p
  (policyRun parOutcome resSeq, policyRun parUnseqOutcome resSeq,
    sweepDriver resSeq (fun K => my_parallel_cnt a p K) times Ks)

/-! ## Workload generation (`main`, lines 77-78 and 102-104) -/

/-- Fixed RNG seed `mt19937_64 rng(123456)` (line 78). -/
def seedConstant : Nat := 123456

/-- Problem sizes `Ns = {100000, 1000000, 5000000}` (line 77). -/
def sizes : List Nat := [100000, 1000000, 5000000]

/-- One workload of size `n` filled from the seeded generator's draw
stream, starting at draw index `start` (lines 102-104): the single `rng`
object is advanced across the outer loop, so each workload consumes the
next `n` draws. -/
def genWorkload (stream : Nat → Int) (start n : Nat) : List Int :=
  (List.range n).map (fun i => stream (start + i))

/-- All workloads of one run, consuming the draw stream sequentially. -/
def genWorkloadsFrom (stream : Nat → Int) : Nat → List Nat → List (List Int)
  | _, [] => []
  | start, n :: ns => genWorkload stream start n :: genWorkloadsFrom stream (start + n) ns

/-- Environment of one execution: the library PRNG algorithm (a fixed
deterministic map from seed and draw index to value), the reported
hardware concurrency, and the wall-clock noise, the latter two varying
between executions. -/
structure RunEnv where
  mt : Nat → Nat → Int
  hw : Nat
  clockNoise : Nat → ℚ

/-- Workload sequences produced by one execution: generated from the
stream of the PRNG seeded with the fixed constant, one per size. -/
def runWorkloads (env : RunEnv) : List (List Int) :=
  genWorkloadsFrom (env.mt seedConstant) 0 sizes

unseal List.merge List.mergeSort ksLoop

/-! ## Partition boundary arithmetic -/

theorem planL_le_iff {n K k i : Nat} (hK : 0 < K) :
    planL n K k ≤ i ↔ n * k < (i + 1) * K := by
  unfold planL
  rw [← Nat.lt_succ_iff, Nat.div_lt_iff_lt_mul hK]

theorem lt_planR_iff {n K k i : Nat} (hK : 0 < K) :
    i < planR n K k ↔ (i + 1) * K ≤ n * (k + 1) := by
  unfold planR
  rw [← Nat.succ_le, Nat.le_div_iff_mul_le hK]

theorem planL_mono {n K : Nat} {k k' : Nat} (h : k ≤ k') : planL n K k ≤ planL n K k' :=
  Nat.div_le_div_right (Nat.mul_le_mul_left n h)

theorem planL_zero (n K : Nat) : planL n K 0 = 0 := by simp [planL]

theorem planL_top {n K : Nat} (hK : 0 < K) : planL n K K = n := by
  simp [planL, Nat.mul_div_cancel _ hK]

theorem planL_le_planR (n K k : Nat) : planL n K k ≤ planR n K k :=
  planL_mono (Nat.le_succ k)

theorem planR_le {n K : Nat} (k : Nat) (hK : 0 < K) (hk : k < K) : planR n K k ≤ n := by
  unfold planR
  calc n * (k + 1) / K ≤ n * K / K := Nat.div_le_div_right (Nat.mul_le_mul_left n hk)
    _ = n := Nat.mul_div_cancel _ hK

theorem cover_exists {n K i : Nat} (hK : 0 < K) (hi : i < n) :
    ∃ k, k < K ∧ planL n K k ≤ i ∧ i < planR n K k := by
  have hn : 0 < n := by omega
  set m := (i + 1) * K with hm_def
  have hm : 0 < m := Nat.mul_pos (by omega) hK
  refine ⟨(m - 1) / n, ?_, ?_, ?_⟩
  · rw [Nat.div_lt_iff_lt_mul hn]
    have h1 : (i + 1) * K ≤ n * K := Nat.mul_le_mul_right K (by omega)
    have h2 : n * K = K * n := Nat.mul_comm n K
    omega
  · rw [planL_le_iff hK]
    have h1 : (m - 1) / n * n ≤ m - 1 := Nat.div_mul_le_self (m - 1) n
    have h2 : n * ((m - 1) / n) = (m - 1) / n * n := Nat.mul_comm _ _
    omega
  · rw [lt_planR_iff hK]
    have h1 : n * ((m - 1) / n) + (m - 1) % n = m - 1 := Nat.div_add_mod (m - 1) n
    have h2 : (m - 1) % n < n := Nat.mod_lt _ hn
    have h3 : n * ((m - 1) / n + 1) = n * ((m - 1) / n) + n := by ring
    omega

theorem cover_unique {n K i k1 k2 : Nat} (hK : 0 < K)
    (h1 : planL n K k1 ≤ i) (h1' : i < planR n K k1)
    (h2 : planL n K k2 ≤ i) (h2' : i < planR n K k2) : k1 = k2 := by
  rw [planL_le_iff hK] at h1 h2
  rw [lt_planR_iff hK] at h1' h2'
  by_contra hne
  rcases Nat.lt_or_ge k1 k2 with h | h
  · have : n * (k1 + 1) ≤ n * k2 := Nat.mul_le_mul_left n h
    omega
  · have hlt : k2 < k1 := by omega
    have : n * (k2 + 1) ≤ n * k1 := Nat.mul_le_mul_left n hlt
    omega

/-! ## Slice counting -/

theorem sliceCount_split (a : List Int) (p : Int → Bool) {L M R : Nat}
    (h1 : L ≤ M) (h2 : M ≤ R) :
    sliceCount a p L R = sliceCount a p L M + sliceCount a p M R := by
  unfold sliceCount
  have hsum : R - L = (M - L) + (R - M) := by omega
  rw [hsum, List.take_add, List.countP_append]
  congr 2
  rw [List.drop_drop]
  congr 2
  omega

theorem sliceCount_full (a : List Int) (p : Int → Bool) :
    sliceCount a p 0 a.length = a.countP p := by
  simp [sliceCount]

theorem sliceCount_refl (a : List Int) (p : Int → Bool) (L : Nat) :
    sliceCount a p L L = 0 := by
  simp [sliceCount]

theorem sum_sliceCount (a : List Int) (p : Int → Bool) (b : Nat → Nat)
    (hmono : ∀ k, b k ≤ b (k + 1)) :
    ∀ K : Nat, ((List.range K).map (fun k => sliceCount a p (b k) (b (k + 1)))).sum
      = sliceCount a p (b 0) (b K) := by
  intro K
  induction K with
  | zero => simp [sliceCount_refl]
  | succ K ih =>
      rw [List.range_succ, List.map_append, List.sum_append]
      simp only [List.map_cons, List.map_nil, List.sum_cons, List.sum_nil]
      rw [ih]
      have hb0 : b 0 ≤ b K := by
        have : Monotone b := monotone_nat_of_le_succ hmono
        exact this (Nat.zero_le K)
      rw [sliceCount_split a p hb0 (hmono K)]
      omega

/-- Core equivalence: the partitioned counter computes the sequential count
for every thread count `K` (shared helper for the claim theorems). -/
theorem my_parallel_cnt_eq_seq (a : List Int) (p : Int → Bool) (K : Nat) :
    my_parallel_cnt a p K = seq_cnt a p := by
  unfold my_parallel_cnt
  by_cases hK : K ≤ 1
  · simp [hK]
  · simp only [if_neg hK]
    have hK0 : 0 < K := by omega
    have hmono : ∀ k, planL a.length K k ≤ planL a.length K (k + 1) :=
      fun k => planL_mono (Nat.le_succ k)
    have h := sum_sliceCount a p (fun k => planL a.length K k) hmono K
    rw [planL_zero, planL_top hK0, sliceCount_full] at h
    exact h

/-- Shared helper: when there are more partitions than elements, some
partition is empty. -/
theorem exists_empty_partition {n K : Nat} (hK : 0 < K) (hn : n < K) :
    ∃ k', k' < K ∧ planL n K k' = planR n K k' := by
  by_contra h
  push_neg at h
  have hstrict : ∀ k', k' < K → planL n K k' < planL n K (k' + 1) := by
    intro k' hk'
    have h1 := planL_le_planR n K k'
    have h2 : planR n K k' = planL n K (k' + 1) := rfl
    have h3 := h k' hk'
    omega
  have hj : ∀ j, j ≤ K → j ≤ planL n K j := by
    intro j
    induction j with
    | zero => simp
    | succ j ih =>
        intro hle
        have h1 := hstrict j (by omega)
        have h2 := ih (by omega)
        omega
  have hK' := hj K le_rfl
  rw [planL_top hK] at hK'
  omega

/-! ## Claim theorems -/

/-- C1: for every workload `W`, every pure predicate `P`, and every thread
count `K ≥ 1`, the partitioned counter returns the same value as the
sequential counter on `(W, P)`; in particular for the evenness predicate
over the workload `[1,2,3,4,5,6]`, the sequential count and the
partitioned count for every `K ∈ {1,2,3,6}` all equal 3. -/
theorem partitioned_counter_refines_sequential (a : List Int) (p : Int → Bool)
    (K : Nat) (hK : 1 ≤ K) :
    my_parallel_cnt a p K = seq_cnt a p ∧
    seq_cnt [1, 2, 3, 4, 5, 6] pred_light = 3 ∧
    ∀ K' ∈ ([1, 2, 3, 6] : List Nat),
      my_parallel_cnt [1, 2, 3, 4, 5, 6] pred_light K' = 3 :=
  ⟨my_parallel_cnt_eq_seq a p K, by decide, by decide⟩

theorem partitioned_counter_refines_sequential_witness :
    my_parallel_cnt [1, 2, 3, 4, 5, 6] pred_light 3
      = seq_cnt [1, 2, 3, 4, 5, 6] pred_light :=
  (partitioned_counter_refines_sequential [1, 2, 3, 4, 5, 6] pred_light 3
    (by omega)).1

/-- C2: for all `N ≥ 0` and `K ≥ 1`, the partition plan
`[planL N K k, planR N K k)` for `k < K` has non-decreasing contiguous
boundaries, pairwise non-overlapping ranges, and union exactly `[0, N)`,
with every index covered by exactly one range; in particular for `N = 8`,
`K = 3` the ranges are `[0,2), [2,5), [5,8)` of sizes 2, 3, 3. -/
theorem partition_plan_correct (n K : Nat) (hK : 1 ≤ K) :
    (∀ k, planL n K k ≤ planR n K k ∧ planR n K k = planL n K (k + 1)) ∧
    (∀ k1 k2, k1 < k2 → planR n K k1 ≤ planL n K k2) ∧
    (∀ i, i < n ↔ ∃ k, k < K ∧ planL n K k ≤ i ∧ i < planR n K k) ∧
    (∀ i k1 k2, planL n K k1 ≤ i → i < planR n K k1 → planL n K k2 ≤ i →
      i < planR n K k2 → k1 = k2) ∧
    (List.range 3).map (fun k => (planL 8 3 k, planR 8 3 k))
      = [(0, 2), (2, 5), (5, 8)] := by
  have hK0 : 0 < K := hK
  refine ⟨fun k => ⟨planL_le_planR n K k, rfl⟩, fun k1 k2 h => planL_mono h,
    fun i => ⟨fun hi => cover_exists hK0 hi, fun hex => ?_⟩,
    fun i k1 k2 h1 h1' h2 h2' => cover_unique hK0 h1 h1' h2 h2', by decide⟩
  obtain ⟨k, hk, _, hiR⟩ := hex
  exact Nat.lt_of_lt_of_le hiR (planR_le k hK0 hk)

theorem partition_plan_correct_witness :
    (List.range 3).map (fun k => (planL 8 3 k, planR 8 3 k))
      = [(0, 2), (2, 5), (5, 8)] :=
  (partition_plan_correct 8 3 (by omega)).2.2.2.2

/-- C6: for every workload, predicate, and `K ≤ 1`, the partitioned counter
takes the degenerate branch: it spawns no worker threads and returns
exactly the sequential count. -/
theorem degenerate_thread_count (a : List Int) (p : Int → Bool) (K : Nat)
    (hK : K ≤ 1) :
    my_parallel_cnt a p K = seq_cnt a p ∧ spawnedThreads K = 0 := by
  constructor
  · unfold my_parallel_cnt
    simp [hK]
  · simp [spawnedThreads, hK]

theorem degenerate_thread_count_witness :
    my_parallel_cnt [1, 2, 3, 4, 5, 6] pred_light 1
        = seq_cnt [1, 2, 3, 4, 5, 6] pred_light ∧
      spawnedThreads 1 = 0 :=
  degenerate_thread_count [1, 2, 3, 4, 5, 6] pred_light 1 (by omega)

/-- C9: for every workload of size `n ≥ 0` and every `K ≥ 2`, each partition
boundary pair satisfies `L ≤ R ≤ n`, so every worker reads only a valid
(possibly empty) sub-range; when `K > n` some partition is empty and
contributes 0, and the total is still the correct sequential count. -/
theorem partition_bounds_safe (a : List Int) (p : Int → Bool) (K k : Nat)
    (hK : 2 ≤ K) (hk : k < K) :
    planL a.length K k ≤ planR a.length K k ∧
    planR a.length K k ≤ a.length ∧
    (a.length < K → ∃ k', k' < K ∧ planL a.length K k' = planR a.length K k' ∧
      sliceCount a p (planL a.length K k') (planR a.length K k') = 0) ∧
    my_parallel_cnt a p K = seq_cnt a p := by
  have hK0 : 0 < K := by omega
  refine ⟨planL_le_planR _ _ _, planR_le k hK0 hk, ?_, my_parallel_cnt_eq_seq a p K⟩
  intro hn
  obtain ⟨k', hk', heq⟩ := exists_empty_partition hK0 hn
  exact ⟨k', hk', heq, by rw [heq]; exact sliceCount_refl a p _⟩

theorem partition_bounds_safe_witness :
    my_parallel_cnt [1] pred_light 3 = seq_cnt [1] pred_light :=
  (partition_bounds_safe [1] pred_light 3 0 (by omega) (by omega)).2.2.2

theorem length_runSamples (time : Nat → ℚ) (R : Nat) :
    (runSamples time R).length = R := by
  simp [runSamples]

/-- C3: for every operation and repeat count `R ≥ 1`, the timer invokes the
operation exactly `R` times (one sample per invocation), sorts the `R`
elapsed-time samples, and returns the middle element of the sorted
samples; the returned value lies within the minimum and maximum of the
samples. -/
theorem timer_median_of_repeats (time : Nat → ℚ) (R : Nat) (hR : 1 ≤ R) :
    (runSamples time R).length = R ∧
    (∃ s : List ℚ, s.Perm (runSamples time R) ∧ s.Sorted (· ≤ ·) ∧
      measure time R = s.getD (R / 2) 0) ∧
    measure time R ∈ runSamples time R ∧
    (runSamples time R).minimum ≤ (measure time R : WithTop ℚ) ∧
    (measure time R : WithBot ℚ) ≤ (runSamples time R).maximum := by
  set t := runSamples time R with ht
  have hlen : t.length = R := length_runSamples time R
  set s := t.mergeSort (fun a b => decide (a ≤ b)) with hs
  have hperm : s.Perm t := List.mergeSort_perm t _
  have hsorted : s.Sorted (· ≤ ·) := by
    have h := @List.sorted_mergeSort ℚ (fun a b => decide (a ≤ b))
      (fun a b c h1 h2 => by
        simp only [decide_eq_true_iff] at *
        exact le_trans h1 h2)
      (fun a b => by
        simp only [Bool.or_eq_true, decide_eq_true_iff]
        exact le_total a b) t
    simpa [List.Sorted, decide_eq_true_iff] using h
  have hmeas : measure time R = s.getD (R / 2) 0 := by
    rw [measure]
    simp only [← ht, ← hs, hlen]
  have hidx : R / 2 < s.length := by
    rw [hperm.length_eq, hlen]
    omega
  have hmem : measure time R ∈ t := by
    rw [hmeas, List.getD_eq_getElem s 0 hidx]
    exact hperm.mem_iff.mp (List.getElem_mem hidx)
  refine ⟨hlen, ⟨s, hperm, hsorted, hmeas⟩, hmem, ?_, ?_⟩
  · exact List.minimum_le_of_mem' hmem
  · exact List.le_maximum_of_mem' hmem

theorem timer_median_of_repeats_witness :
    measure (fun i => ([5, 3, 9, 1, 7, 2, 8] : List ℚ).getD i 0) 7
      ∈ runSamples (fun i => ([5, 3, 9, 1, 7, 2, 8] : List ℚ).getD i 0) 7 :=
  (timer_median_of_repeats (fun i => ([5, 3, 9, 1, 7, 2, 8] : List ℚ).getD i 0) 7
    (by omega)).2.2.1

theorem foldl_stepBest_spec (l : List (Nat × ℚ)) : ∀ b : Nat × ℚ,
    (l.foldl stepBest b = b ∧ ∀ o ∈ l, b.2 ≤ o.2) ∨
    (∃ i, ∃ h : i < l.length, l.foldl stepBest b = l.get ⟨i, h⟩ ∧
      (l.foldl stepBest b).2 < b.2 ∧ (∀ o ∈ l, (l.foldl stepBest b).2 ≤ o.2) ∧
      ∀ j (hj : j < i), (l.foldl stepBest b).2 < (l.get ⟨j, Nat.lt_trans hj h⟩).2) := by
  induction l with
  | nil => intro b; left; exact ⟨rfl, by simp⟩
  | cons o l ih =>
      intro b
      rw [List.foldl_cons]
      by_cases hlt : o.2 < b.2
      · have hb' : stepBest b o = o := by simp [stepBest, hlt]
        rw [hb']
        rcases ih o with ⟨heq, hall⟩ | ⟨i, h, heq, hlt2, hall, hfirst⟩
        · right
          refine ⟨0, by simp, by simpa using heq, ?_, ?_, ?_⟩
          · rw [heq]; exact hlt
          · intro o' ho'
            rw [heq]
            rcases List.mem_cons.mp ho' with rfl | hmem
            · exact le_refl _
            · exact hall o' hmem
          · intro j hj; omega
        · right
          refine ⟨i + 1, by simpa using Nat.succ_lt_succ h, by simpa using heq, ?_, ?_, ?_⟩
          · exact lt_trans hlt2 hlt
          · intro o' ho'
            rcases List.mem_cons.mp ho' with rfl | hmem
            · exact le_of_lt hlt2
            · exact hall o' hmem
          · intro j hj
            cases j with
            | zero => simpa using hlt2
            | succ j =>
                have := hfirst j (by omega)
                simpa using this
      · have hb' : stepBest b o = b := by simp [stepBest, hlt]
        rw [hb']
        have hbo : b.2 ≤ o.2 := le_of_not_lt hlt
        rcases ih b with ⟨heq, hall⟩ | ⟨i, h, heq, hlt2, hall, hfirst⟩
        · left
          refine ⟨heq, ?_⟩
          intro o' ho'
          rcases List.mem_cons.mp ho' with rfl | hmem
          · exact hbo
          · exact hall o' hmem
        · right
          refine ⟨i + 1, by simpa using Nat.succ_lt_succ h, by simpa using heq, hlt2, ?_, ?_⟩
          · intro o' ho'
            rcases List.mem_cons.mp ho' with rfl | hmem
            · exact le_of_lt (lt_of_lt_of_le hlt2 hbo)
            · exact hall o' hmem
          · intro j hj
            cases j with
            | zero => simpa using lt_of_lt_of_le hlt2 hbo
            | succ j =>
                have := hfirst j (by omega)
                simpa using this

/-- C4: given the ordered `(K, time)` observations of one sweep, the driver
selects the observation whose time is the strict minimum of the sequence,
keeping the earliest-seen `K` on ties; in particular on the synthetic
sequence `[(1,50),(2,30),(4,12),(8,15)]` it selects `K = 4` with time 12. -/
theorem best_k_selection (obs : List (Nat × ℚ)) (hne : obs ≠ [])
    (hb : ∀ o ∈ obs, o.2 < 10 ^ 300) :
    (∃ i, ∃ h : i < obs.length, sweepBest obs = obs.get ⟨i, h⟩ ∧
      (∀ o ∈ obs, (sweepBest obs).2 ≤ o.2) ∧
      ∀ j (hj : j < i), (sweepBest obs).2 < (obs.get ⟨j, Nat.lt_trans hj h⟩).2) ∧
    sweepBest [(1, 50), (2, 30), (4, 12), (8, 15)] = (4, 12) := by
  constructor
  · rcases foldl_stepBest_spec obs bestInit with ⟨heq, hall⟩ | ⟨i, h, heq, _, hall, hfirst⟩
    · obtain ⟨o, ho⟩ := List.exists_mem_of_ne_nil obs hne
      have h1 := hall o ho
      have h2 := hb o ho
      simp only [bestInit] at h1
      exact absurd h1 (not_le.mpr h2)
    · exact ⟨i, h, heq, hall, hfirst⟩
  · norm_num [sweepBest, stepBest, bestInit]

theorem best_k_selection_witness :
    sweepBest [(1, 50), (2, 30), (4, 12), (8, 15)] = (4, 12) :=
  (best_k_selection [(1, 50), (2, 30), (4, 12), (8, 15)] (by simp) (by norm_num)).2

theorem mem_ksLoop_fuel : ∀ (fuel bound k : Nat) (hk : 0 < k),
    bound + 1 - k ≤ fuel →
    ∀ x, (x ∈ ksLoop bound k hk ↔ ∃ j, x = k * 2 ^ j ∧ x ≤ bound) := by
  intro fuel
  induction fuel with
  | zero =>
      intro bound k hk hfuel x
      have hgt : ¬ k ≤ bound := by omega
      rw [ksLoop]
      simp only [hgt, dite_false]
      simp only [List.not_mem_nil, false_iff, not_exists]
      rintro j ⟨rfl, hle⟩
      have : k ≤ k * 2 ^ j := Nat.le_mul_of_pos_right k (Nat.pos_pow_of_pos j (by omega))
      omega
  | succ fuel ih =>
      intro bound k hk hfuel x
      rw [ksLoop]
      by_cases h : k ≤ bound
      · simp only [h, dite_true, List.mem_cons]
        rw [ih bound (2 * k) (by omega) (by omega) x]
        constructor
        · rintro (rfl | ⟨j, rfl, hle⟩)
          · exact ⟨0, by simp, h⟩
          · refine ⟨j + 1, ?_, hle⟩
            ring
        · rintro ⟨j, rfl, hle⟩
          cases j with
          | zero => left; simp
          | succ j =>
              right
              refine ⟨j, ?_, hle⟩
              ring
      · simp only [h, dite_false]
        simp only [List.not_mem_nil, false_iff, not_exists]
        rintro j ⟨rfl, hle⟩
        have : k ≤ k * 2 ^ j := Nat.le_mul_of_pos_right k (Nat.pos_pow_of_pos j (by omega))
        omega

theorem mem_ksLoop (bound k : Nat) (hk : 0 < k) (x : Nat) :
    x ∈ ksLoop bound k hk ↔ ∃ j, x = k * 2 ^ j ∧ x ≤ bound :=
  mem_ksLoop_fuel (bound + 1 - k) bound k hk le_rfl x

theorem sorted_le_mergeSort_nat (l : List Nat) :
    (l.mergeSort (fun a b => decide (a ≤ b))).Sorted (· ≤ ·) := by
  have h := @List.sorted_mergeSort Nat (fun a b => decide (a ≤ b))
    (fun a b c h1 h2 => by
      simp only [decide_eq_true_iff] at *
      exact le_trans h1 h2)
    (fun a b => by
      simp only [Bool.or_eq_true, decide_eq_true_iff]
      exact le_total a b) l
  simpa [List.Sorted, decide_eq_true_iff] using h

theorem candidateKs_sorted (hw : Nat) : (candidateKs hw).Sorted (· < ·) := by
  unfold candidateKs
  have h1 := sorted_le_mergeSort_nat
    ([1, 2, 4, 8, 16, 32, 64] ++ ksLoop (2 * hw) 2 (by omega))
  have h2 : ((([1, 2, 4, 8, 16, 32, 64] ++ ksLoop (2 * hw) 2 (by omega)).mergeSort
      (fun a b => decide (a ≤ b))).dedup).Sorted (· ≤ ·) :=
    List.Pairwise.sublist (List.dedup_sublist _) h1
  exact h2.lt_of_le (List.nodup_dedup _)

theorem mem_candidateKs (hw : Nat) (x : Nat) :
    x ∈ candidateKs hw ↔ x ∈ ([1, 2, 4, 8, 16, 32, 64] : List Nat) ∨
      ∃ j, x = 2 ^ j ∧ 2 ≤ x ∧ x ≤ 2 * hw := by
  unfold candidateKs
  rw [List.mem_dedup, List.mem_mergeSort, List.mem_append]
  apply or_congr_right
  rw [mem_ksLoop (2 * hw) 2 (by omega) x]
  constructor
  · rintro ⟨j, rfl, hle⟩
    refine ⟨j + 1, by ring, ?_, hle⟩
    have : 1 ≤ 2 ^ j := Nat.one_le_two_pow
    omega
  · rintro ⟨j, rfl, h2, hle⟩
    cases j with
    | zero => simp at h2
    | succ j => exact ⟨j, by ring, hle⟩

/-- C5 (amended): for every hardware-parallelism value `H ≥ 1`, the
candidate K set is strictly ascending (hence deduplicated and sorted) and
its members are exactly the union of the small constants
`{1,2,4,8,16,32,64}` with the powers of two from 2 up to twice `H`;
the source loop pushes powers of two, not power-of-two multiples of `H`. -/
theorem candidate_set_characterization (hw : Nat) (hhw : 1 ≤ hw) :
    (candidateKs hw).Sorted (· < ·) ∧
    ∀ x, (x ∈ candidateKs hw ↔ x ∈ ([1, 2, 4, 8, 16, 32, 64] : List Nat) ∨
      ∃ j, x = 2 ^ j ∧ 2 ≤ x ∧ x ≤ 2 * hw) :=
  ⟨candidateKs_sorted hw, mem_candidateKs hw⟩

theorem candidate_set_characterization_witness :
    (candidateKs 3).Sorted (· < ·) :=
  (candidate_set_characterization 3 (by omega)).1

/-- C5 counterexample: at hardware parallelism `H = 3` the code's candidate
set `[1,2,4,8,16,32,64]` differs from the claim's "union with every
power-of-two multiple of `H` up to twice `H`", which would contain 3 and 6. -/
theorem candidate_set_claim_counterexample : candidateKs 3 ≠ specCandidateKs 3 := by
  decide

theorem sweepDriver_reports_aux (resSeq : Nat) (counts : Nat → Nat) (times : Nat → ℚ) :
    ∀ (Ks : List Nat) (acc : List KReport × Nat × ℚ),
      (Ks.foldl (sweepStep resSeq counts times) acc).1
        = acc.1 ++ Ks.map (fun K => ⟨K, counts K, times K, counts K != resSeq⟩) := by
  intro Ks
  induction Ks with
  | nil => intro acc; simp
  | cons K Ks ih =>
      intro acc
      rw [List.foldl_cons, ih]
      simp [sweepStep]

theorem sweepDriver_best_aux (resSeq : Nat) (counts : Nat → Nat) (times : Nat → ℚ) :
    ∀ (Ks : List Nat) (acc : List KReport × Nat × ℚ),
      (Ks.foldl (sweepStep resSeq counts times) acc).2
        = (Ks.map (fun K => (K, times K))).foldl stepBest acc.2 := by
  intro Ks
  induction Ks with
  | nil => intro acc; rfl
  | cons K Ks ih =>
      intro acc
      rw [List.foldl_cons, ih, List.map_cons, List.foldl_cons]
      rfl

/-- C7: during a sweep, a result differing from the sequential baseline is
recorded as a correctness violation for that K and the sweep is not
aborted: every K of the candidate list is still evaluated, timed, and
reported in order, and the best-K tracking depends only on the observed
times, unaffected by violations. -/
theorem sweep_violation_no_abort (resSeq : Nat) (counts : Nat → Nat)
    (times : Nat → ℚ) (Ks : List Nat) :
    (sweepDriver resSeq counts times Ks).1.map KReport.K = Ks ∧
    (∀ r ∈ (sweepDriver resSeq counts times Ks).1,
      r.res = counts r.K ∧ r.time = times r.K ∧ r.err = (counts r.K != resSeq)) ∧
    (sweepDriver resSeq counts times Ks).2 = sweepBest (Ks.map (fun K => (K, times K))) := by
  have h1 := sweepDriver_reports_aux resSeq counts times Ks ([], bestInit)
  have h2 := sweepDriver_best_aux resSeq counts times Ks ([], bestInit)
  have h1' : (sweepDriver resSeq counts times Ks).1
      = Ks.map (fun K => ⟨K, counts K, times K, counts K != resSeq⟩) := by
    rw [sweepDriver, h1]
    rfl
  refine ⟨?_, ?_, ?_⟩
  · rw [h1', List.map_map]
    have hcomp : (KReport.K ∘ fun K =>
        (⟨K, counts K, times K, counts K != resSeq⟩ : KReport)) = id := rfl
    rw [hcomp, List.map_id]
  · intro r hr
    rw [h1'] at hr
    obtain ⟨K, hK, rfl⟩ := List.mem_map.mp hr
    exact ⟨rfl, rfl, rfl⟩
  · rw [sweepDriver, h2]
    rfl

/-- C8: a failing library policy invocation is caught at the call site and
reported as unsupported instead of terminating (the wrapper is total), the
policy's result variable keeps the sequential baseline value so a
comparison against the baseline cannot fire, and the subsequent sweep for
the same predicate is unaffected by either policy's outcome. -/
theorem policy_failure_handling (a : List Int) (p : Int → Bool)
    (times : Nat → ℚ) (Ks : List Nat) :
    policyRun none (seq_cnt a p) = (seq_cnt a p, -1, false) ∧
    (((policyRun none (seq_cnt a p)).1 != seq_cnt a p) = false) ∧
    (∀ r t, policyRun (some (r, t)) (seq_cnt a p) = (r, t, true)) ∧
    ∀ o1 o2 o1' o2', (predicateBlock a p o1 o2 times Ks).2.2
      = (predicateBlock a p o1' o2' times Ks).2.2 :=
  ⟨rfl, by simp [policyRun], fun r t => rfl, fun o1 o2 o1' o2' => rfl⟩

/-- C10: workload generation is deterministic across runs: the generator is
seeded with the fixed constant 123456, so two executions sharing the
library's PRNG algorithm but differing in hardware parallelism and
wall-clock behaviour produce identical workload sequences for each size,
and identical sequential and partitioned counts for every
`(N, predicate, K)`. -/
theorem workload_determinism (env1 env2 : RunEnv) (h : env1.mt = env2.mt) :
    runWorkloads env1 = runWorkloads env2 ∧
    ∀ i p K, my_parallel_cnt ((runWorkloads env1).getD i []) p K
        = my_parallel_cnt ((runWorkloads env2).getD i []) p K ∧
      seq_cnt ((runWorkloads env1).getD i []) p
        = seq_cnt ((runWorkloads env2).getD i []) p := by
  have heq : runWorkloads env1 = runWorkloads env2 := by
    unfold runWorkloads
    rw [h]
  exact ⟨heq, fun i p K => ⟨by rw [heq], by rw [heq]⟩⟩

theorem workload_determinism_witness :
    runWorkloads ⟨fun s i => (s + i : Int), 4, fun t => 0⟩
      = runWorkloads ⟨fun s i => (s + i : Int), 8, fun t => 1⟩ :=
  (workload_determinism ⟨fun s i => (s + i : Int), 4, fun t => 0⟩
    ⟨fun s i => (s + i : Int), 8, fun t => 1⟩ rfl).1

end Lab2



